import Mathlib

/-
Verification of the linked-list module of ihavn/ESW1-LinkedList.

The repository ships only the interface header `src/LinkedList.h`; the
implementation file is not present.  All operations below are therefore
modelled from the specification (spec.md) and the header's doc comments.

Modelling choices:
* An item is an opaque non-null pointer, modelled as a natural number
  (`ItemRef`).  The absent sentinel (the C `NULL` return) is modelled by
  `Option`: `none` is the sentinel, `some r` a valid item reference.
* The list state is the head-to-tail sequence of stored item references
  together with the maintained node count that `linkedList_length` reports.
* An iterator is a pointer to a node, modelled as the suffix of the node
  sequence that starts at that node; the `NULL` iterator is the empty suffix.
* Allocation never fails in the model, so `linkedList_push` always
  returns `LINKED_LIST_OK` (the spec reserves `LINKED_LIST_FULL` for heap
  exhaustion only, a resource condition outside the functional model).
-/

namespace LinkedList

/-- Modelled from the spec: opaque item references ("void pointers") stored in
the list, compared by reference identity.  Modelled as naturals. -/
abbrev ItemRef := Nat

/-- Return codes from linked list functions (`linkedList_return_codes_t`). -/
inductive RetCode where
  | LINKED_LIST_OK
  | LINKED_LIST_EMPTY
  | LINKED_LIST_FULL
  | LINKED_LIST_NOT_FOUND
  | LINKED_LIST_FOUND
deriving DecidableEq, Repr

/-- Modelled from the spec: the list state behind the opaque `linkedList_t`
handle.  `nodes` is the head-to-tail sequence of stored item references;
`numberOfNodes` is the node count maintained by the operations and reported
by `linkedList_length`. -/
structure LState where
  nodes : List ItemRef
  numberOfNodes : Nat
deriving DecidableEq, Repr

/-- Modelled from the spec: `create()` returns a new empty list
(the implementation `linkedList_create` is not in the sources). -/
def linkedList_create : LState := ⟨[], 0⟩

/-- Modelled from the spec: `push(item)` inserts the item at the head
(the implementation `linkedList_push` is not in the sources). -/
def linkedList_push (list : LState) (item : ItemRef) : RetCode × LState :=
  (RetCode.LINKED_LIST_OK, ⟨item :: list.nodes, list.numberOfNodes + 1⟩)

/-- Modelled from the spec: `pull()` removes and returns the head item, or
returns the absent sentinel when no items remain (the implementation
`linkedList_pull` is not in the sources). -/
def linkedList_pull (list : LState) : Option ItemRef × LState :=
  match list.nodes with
  | [] => (none, list)
  | x :: xs => (some x, ⟨xs, list.numberOfNodes - 1⟩)

/-- Zero-based scan from the head used by `peekByIndex`. -/
def peekScan : List ItemRef → Nat → Option ItemRef
  | [], _ => none
  | x :: _, 0 => some x
  | _ :: xs, i + 1 => peekScan xs i

/-- Modelled from the spec: `peekByIndex(index)` scans from the head and
returns the item at the zero-based position without removal, or the absent
sentinel when the index is at or beyond the length (the implementation
`linkedList_peekItemByIndex` is not in the sources). -/
def linkedList_peekItemByIndex (list : LState) (index : Nat) : Option ItemRef :=
  peekScan list.nodes index

/-- Linear scan comparing by reference identity, used by `containsItem`. -/
def containsScan : List ItemRef → ItemRef → RetCode
  | [], _ => RetCode.LINKED_LIST_NOT_FOUND
  | x :: xs, item =>
    if x = item then RetCode.LINKED_LIST_FOUND else containsScan xs item

/-- Modelled from the spec: `containsItem(item)` scans the list comparing by
reference identity and returns Found or NotFound (the implementation
`linkedList_containsItem` is not in the sources). -/
def linkedList_containsItem (list : LState) (item : ItemRef) : RetCode :=
  containsScan list.nodes item

/-- Modelled from the spec: `length()` returns the number of items in the
list (the implementation `linkedList_length` is not in the sources). -/
def linkedList_length (list : LState) : Nat :=
  list.numberOfNodes

/-- Modelled from the spec: `clear()` unlinks all nodes; the list becomes
empty (the implementation `linkedList_clear` is not in the sources). -/
def linkedList_clear (_list : LState) : LState := ⟨[], 0⟩

/-- Linear scan used by `removeItem`: unlinks the first node whose reference
equals the given item, returning the code and the resulting node sequence. -/
def removeScan : List ItemRef → ItemRef → RetCode × List ItemRef
  | [], _ => (RetCode.LINKED_LIST_NOT_FOUND, [])
  | x :: xs, item =>
    if x = item then (RetCode.LINKED_LIST_OK, xs)
    else
      let r := removeScan xs item
      (r.1, x :: r.2)

/-- Modelled from the spec: `removeItem(item)` unlinks the first node whose
reference equals the item and returns Ok, or returns NotFound leaving the
list unchanged (the implementation `linkedList_removeItem` is not in the
sources). -/
def linkedList_removeItem (list : LState) (item : ItemRef) : RetCode × LState :=
  match removeScan list.nodes item with
  | (RetCode.LINKED_LIST_OK, newNodes) =>
      (RetCode.LINKED_LIST_OK, ⟨newNodes, list.numberOfNodes - 1⟩)
  | (code, _) => (code, list)

/-- An iterator (`linkedList_iterator_t`) is a pointer to a node, modelled as
the suffix of the node sequence starting at that node; the `NULL` pointer is
the empty suffix. -/
abbrev Iterator := List ItemRef

/-- The `NULL` iterator, the absent sentinel of the iterator API. -/
def nullIterator : Iterator := []

/-- Modelled from the spec: `getIterator()` returns a cursor at the head, or
the absent sentinel if the list is empty (the implementation
`linkedList_getIterator` is not in the sources). -/
def linkedList_getIterator (list : LState) : Iterator :=
  list.nodes

/-- Modelled from the spec: `iteratorNext(list, iterator)` returns the item
the cursor points at and advances the cursor, or returns the absent sentinel
past the tail; the list itself is only read (the implementation
`linkedList_iteratorNext` is not in the sources).  The result is the
returned item, the list state after the call, and the advanced cursor. -/
def linkedList_iteratorNext (list : LState) (iterator : Iterator) :
    Option ItemRef × LState × Iterator :=
  match iterator with
  | [] => (none, list, nullIterator)
  | x :: xs => (some x, list, xs)

/-- The results of `n` successive `iteratorNext` calls starting from the
given cursor. -/
def iterCollect (list : LState) : Nat → Iterator → List (Option ItemRef)
  | 0, _ => []
  | n + 1, it =>
    let r := linkedList_iteratorNext list it
    r.1 :: iterCollect list n r.2.2

/-- The mutating operations of the API, used to describe reachable states. -/
inductive Op where
  | push (item : ItemRef)
  | pull
  | removeItem (item : ItemRef)
  | clear
deriving DecidableEq, Repr

/-- The state after one operation. -/
def applyOp (s : LState) : Op → LState
  | Op.push item => (linkedList_push s item).2
  | Op.pull => (linkedList_pull s).2
  | Op.removeItem item => (linkedList_removeItem s item).2
  | Op.clear => linkedList_clear s

/-- The state reached from `linkedList_create` by a sequence of operations. -/
def run (ops : List Op) : LState :=
  ops.foldl applyOp linkedList_create

/-- The state after pushing a sequence of items in order. -/
def pushAll (s : LState) (items : List ItemRef) : LState :=
  items.foldl (fun t x => (linkedList_push t x).2) s

/-- The results of `n` successive pulls. -/
def pullsN : Nat → LState → List (Option ItemRef)
  | 0, _ => []
  | n + 1, s =>
    let r := linkedList_pull s
    r.1 :: pullsN n r.2

/-! ## Helper lemmas -/

/-- Pushing a sequence of items leaves the reversed sequence on top of the
previous nodes. -/
theorem pushAll_nodes (items : List ItemRef) : ∀ (s : LState),
    (pushAll s items).nodes = items.reverse ++ s.nodes := by
  induction items with
  | nil => intro s; simp [pushAll]
  | cons x xs ih =>
    intro s
    have h1 : pushAll s (x :: xs) =
        pushAll ⟨x :: s.nodes, s.numberOfNodes + 1⟩ xs := rfl
    rw [h1, ih]
    simp

/-- Pulling as many times as there are nodes returns the nodes in order. -/
theorem pullsN_nodes : ∀ (l : List ItemRef) (c : Nat),
    pullsN l.length ⟨l, c⟩ = l.map some
  | [], _ => rfl
  | x :: xs, c => by
    simpa [pullsN, linkedList_pull] using pullsN_nodes xs (c - 1)

/-- The traversal of a cursor yields its suffix and then the sentinel. -/
theorem iterCollect_spec (s : LState) : ∀ (it : Iterator),
    iterCollect s (it.length + 1) it = it.map some ++ [none]
  | [] => rfl
  | x :: xs => by
    simpa [iterCollect, linkedList_iteratorNext] using iterCollect_spec s xs

/-- The contains scan yields Found exactly on members. -/
theorem containsScan_found_iff (x : ItemRef) : ∀ (l : List ItemRef),
    containsScan l x = RetCode.LINKED_LIST_FOUND ↔ x ∈ l := by
  intro l
  induction l with
  | nil => simp [containsScan]
  | cons y ys ih =>
    by_cases h : y = x
    · simp [containsScan, h]
    · simp [containsScan, h, ih, List.mem_cons]
      intro hxy
      exact absurd hxy.symm h

/-- The contains scan returns either Found or NotFound. -/
theorem containsScan_cases (x : ItemRef) : ∀ (l : List ItemRef),
    containsScan l x = RetCode.LINKED_LIST_FOUND ∨
      containsScan l x = RetCode.LINKED_LIST_NOT_FOUND
  | [] => Or.inr rfl
  | y :: ys => by
    by_cases h : y = x
    · exact Or.inl (by simp [containsScan, h])
    · simpa [containsScan, h] using containsScan_cases x ys

/-- The contains scan yields NotFound exactly on non-members. -/
theorem containsScan_notFound_iff (x : ItemRef) (l : List ItemRef) :
    containsScan l x = RetCode.LINKED_LIST_NOT_FOUND ↔ x ∉ l := by
  constructor
  · intro h hmem
    have := (containsScan_found_iff x l).2 hmem
    rw [this] at h
    exact RetCode.noConfusion h
  · intro hmem
    rcases containsScan_cases x l with h | h
    · exact absurd ((containsScan_found_iff x l).1 h) hmem
    · exact h

/-- The peek scan computes the optional element at the index. -/
theorem peekScan_eq_get? : ∀ (l : List ItemRef) (i : Nat),
    peekScan l i = l.get? i
  | [], _ => rfl
  | _ :: _, 0 => rfl
  | _ :: xs, i + 1 => peekScan_eq_get? xs i

/-- Removing an absent item leaves the node sequence untouched. -/
theorem removeScan_not_mem : ∀ (l : List ItemRef) (x : ItemRef), x ∉ l →
    removeScan l x = (RetCode.LINKED_LIST_NOT_FOUND, l)
  | [], _, _ => rfl
  | y :: ys, x, h => by
    simp only [List.mem_cons, not_or] at h
    obtain ⟨h1, h2⟩ := h
    simp [removeScan, Ne.symm h1, removeScan_not_mem ys x h2]

/-- Removing a present item unlinks exactly its first occurrence. -/
theorem removeScan_first : ∀ (pre : List ItemRef) (x : ItemRef)
    (post : List ItemRef), x ∉ pre →
    removeScan (pre ++ x :: post) x = (RetCode.LINKED_LIST_OK, pre ++ post)
  | [], x, post, _ => by simp [removeScan]
  | y :: ys, x, post, h => by
    simp only [List.mem_cons, not_or] at h
    obtain ⟨h1, h2⟩ := h
    simp [removeScan, Ne.symm h1, removeScan_first ys x post h2]

/-- A successful removal shortens the node sequence by exactly one. -/
theorem removeScan_ok_length (x : ItemRef) : ∀ (l l' : List ItemRef),
    removeScan l x = (RetCode.LINKED_LIST_OK, l') → l'.length + 1 = l.length := by
  intro l
  induction l with
  | nil => intro l' h; simp [removeScan] at h
  | cons y ys ih =>
    intro l' h
    by_cases hy : y = x
    · simp only [removeScan, if_pos hy, Prod.mk.injEq] at h
      rw [← h.2]
      simp
    · rcases hr : removeScan ys x with ⟨code, zs⟩
      simp only [removeScan, if_neg hy, hr, Prod.mk.injEq] at h
      obtain ⟨hc, hl⟩ := h
      have := ih zs (by rw [hr, hc])
      rw [← hl]
      simp
      omega

/-- Every single operation preserves the maintained node count. -/
theorem applyOp_inv (s : LState) (op : Op)
    (h : s.numberOfNodes = s.nodes.length) :
    (applyOp s op).numberOfNodes = (applyOp s op).nodes.length := by
  cases op with
  | push item => simp [applyOp, linkedList_push, h]
  | pull =>
    obtain ⟨l, c⟩ := s
    cases l with
    | nil => simpa [applyOp, linkedList_pull] using h
    | cons y ys =>
      simp only [applyOp, linkedList_pull] at h ⊢
      simp at h
      simp [h]
  | removeItem item =>
    simp only [applyOp, linkedList_removeItem]
    rcases hr : removeScan s.nodes item with ⟨code, zs⟩
    cases code
    case LINKED_LIST_OK =>
      have hlen := removeScan_ok_length item s.nodes zs hr
      simp only []
      omega
    all_goals simpa using h
  | clear => rfl

/-- In every reachable state the maintained count equals the number of nodes. -/
theorem run_inv (ops : List Op) :
    (run ops).numberOfNodes = (run ops).nodes.length := by
  have key : ∀ (l : List Op) (s : LState), s.numberOfNodes = s.nodes.length →
      (l.foldl applyOp s).numberOfNodes = (l.foldl applyOp s).nodes.length := by
    intro l
    induction l with
    | nil => intro s h; simpa using h
    | cons op rest ih =>
      intro s h
      simpa [List.foldl_cons] using ih (applyOp s op) (applyOp_inv s op h)
  exact key ops linkedList_create rfl

/-- The peek scan yields the sentinel exactly when the index is out of range. -/
theorem peekScan_none_iff : ∀ (l : List ItemRef) (i : Nat),
    peekScan l i = none ↔ l.length ≤ i
  | [], i => by simp [peekScan]
  | _ :: _, 0 => by simp [peekScan]
  | _ :: xs, i + 1 => by
    simpa [peekScan] using peekScan_none_iff xs i

/-! ## Claim theorems -/

/-- C1: For every sequence of pushes on a list created by `linkedList_create`,
pulling as many times as items were pushed returns exactly the pushed items in
strict reverse order of their insertion: push inserts at the head and pull
removes from the head (LIFO stack discipline). -/
theorem push_pull_lifo (items : List ItemRef) :
    pullsN items.length (pushAll linkedList_create items) =
      items.reverse.map some := by
  have hn : (pushAll linkedList_create items).nodes = items.reverse := by
    simpa [linkedList_create] using pushAll_nodes items linkedList_create
  have hs : pushAll linkedList_create items =
      ⟨items.reverse, (pushAll linkedList_create items).numberOfNodes⟩ := by
    rw [← hn]
  rw [hs]
  have hl : items.length = items.reverse.length := (List.length_reverse items).symm
  rw [hl]
  exact pullsN_nodes items.reverse _

/-- C2: `linkedList_getIterator` returns the absent sentinel exactly when the
list is empty, and for a list of N items, N + 1 successive calls to
`linkedList_iteratorNext` starting from that iterator yield the N stored items
in head-to-tail order followed by the absent sentinel. -/
theorem iterator_yields_all_items (s : LState) :
    (linkedList_getIterator s = nullIterator ↔ s.nodes = []) ∧
    iterCollect s (s.nodes.length + 1) (linkedList_getIterator s) =
      s.nodes.map some ++ [none] :=
  ⟨Iff.rfl, iterCollect_spec s s.nodes⟩

/-- C3: In every state reachable from `linkedList_create`,
`linkedList_containsItem` returns Found exactly when the item reference is
currently stored in the list (pushed and not since pulled or removed), and
NotFound otherwise; comparison is by reference identity. -/
theorem containsItem_found_iff (ops : List Op) (x : ItemRef) :
    (linkedList_containsItem (run ops) x = RetCode.LINKED_LIST_FOUND ↔
      x ∈ (run ops).nodes) ∧
    (linkedList_containsItem (run ops) x = RetCode.LINKED_LIST_NOT_FOUND ↔
      x ∉ (run ops).nodes) :=
  ⟨containsScan_found_iff x (run ops).nodes,
    containsScan_notFound_iff x (run ops).nodes⟩

/-- C4: Removing an item reference not contained in the list returns NotFound
and leaves the list completely unchanged. -/
theorem removeItem_absent_unchanged (s : LState) (x : ItemRef)
    (h : x ∉ s.nodes) :
    linkedList_removeItem s x = (RetCode.LINKED_LIST_NOT_FOUND, s) := by
  unfold linkedList_removeItem
  rw [removeScan_not_mem s.nodes x h]

/-- Witness for C4 at the concrete state reached by pushing 1, removing 2. -/
theorem removeItem_absent_unchanged_witness :
    (2 ∉ (run [Op.push 1]).nodes) ∧
    linkedList_removeItem (run [Op.push 1]) 2 =
      (RetCode.LINKED_LIST_NOT_FOUND, run [Op.push 1]) :=
  ⟨by decide, removeItem_absent_unchanged (run [Op.push 1]) 2 (by decide)⟩

/-- C5: Removing an item reference present in the list unlinks exactly the
first node holding it (scanning from the head), returns the Ok code, and
leaves all other nodes in their original head-to-tail order. -/
theorem removeItem_first_occurrence (s : LState) (x : ItemRef)
    (pre post : List ItemRef) (hs : s.nodes = pre ++ x :: post)
    (hpre : x ∉ pre) :
    linkedList_removeItem s x =
      (RetCode.LINKED_LIST_OK, ⟨pre ++ post, s.numberOfNodes - 1⟩) := by
  unfold linkedList_removeItem
  rw [hs, removeScan_first pre x post hpre]

/-- Witness for C5: pushing 3, 2, 1 yields nodes [1, 2, 3]; removing 2 unlinks
the middle node and keeps the order of the rest. -/
theorem removeItem_first_occurrence_witness :
    ((run [Op.push 3, Op.push 2, Op.push 1]).nodes = [1] ++ 2 :: [3]) ∧
    (2 ∉ ([1] : List ItemRef)) ∧
    linkedList_removeItem (run [Op.push 3, Op.push 2, Op.push 1]) 2 =
      (RetCode.LINKED_LIST_OK,
        ⟨[1] ++ [3],
          (run [Op.push 3, Op.push 2, Op.push 1]).numberOfNodes - 1⟩) :=
  ⟨by decide, by decide,
    removeItem_first_occurrence (run [Op.push 3, Op.push 2, Op.push 1]) 2
      [1] [3] (by decide) (by decide)⟩

/-- C6: `linkedList_pull` returns the absent sentinel exactly when the list is
empty; it returns the head item and removes the head node, leaving the tail. -/
theorem pull_head (s : LState) :
    ((linkedList_pull s).1 = none ↔ s.nodes = []) ∧
    (linkedList_pull s).1 = s.nodes.head? ∧
    (linkedList_pull s).2.nodes = s.nodes.tail := by
  obtain ⟨l, c⟩ := s
  cases l <;> simp [linkedList_pull]

/-- C7: `linkedList_peekItemByIndex` returns the item at the zero-based
position counted from the head without removing it (it is a pure query on the
list), and returns the absent sentinel exactly when the index is at or beyond
the current length. -/
theorem peekItemByIndex_spec (s : LState) (index : Nat) :
    linkedList_peekItemByIndex s index = s.nodes.get? index ∧
    (linkedList_peekItemByIndex s index = none ↔ s.nodes.length ≤ index) :=
  ⟨peekScan_eq_get? s.nodes index, peekScan_none_iff s.nodes index⟩

/-- C8: In every state reachable by any sequence of operations from
`linkedList_create`, `linkedList_length` equals the number of nodes currently
in the list; every operation preserves this invariant. -/
theorem length_counts_nodes (ops : List Op) :
    linkedList_length (run ops) = (run ops).nodes.length :=
  run_inv ops

/-- C9: After `linkedList_clear`, `linkedList_length` returns 0 and the list
holds no nodes. -/
theorem clear_empties (s : LState) :
    linkedList_length (linkedList_clear s) = 0 ∧
      (linkedList_clear s).nodes = [] :=
  ⟨rfl, rfl⟩

/-- C10: `linkedList_iteratorNext` only reads the list and advances the
caller's cursor: the list state after the call (its node sequence, stored
items, and length) is exactly the state before the call. -/
theorem iteratorNext_preserves_list (s : LState) (iterator : Iterator) :
    (linkedList_iteratorNext s iterator).2.1 = s := by
  cases iterator <;> rfl

end LinkedList
